import Mathlib

/- Formal model of compare_excels.py: a shallow embedding of the script's
   core logic (row_hash, find_key_column, pair_files, compare_dataframes)
   together with models of the library routines the script calls
   (hashlib.md5, difflib.SequenceMatcher / get_close_matches, and the
   pandas index operations used by compare_dataframes). -/

namespace CE

/- Scalar cell values of a loaded spreadsheet table: a missing value (NaN),
   an integer, or a string.  `na` models pandas NaN / None. -/
inductive Value where
  | na : Value
  | int : Int → Value
  | str : String → Value
deriving DecidableEq, Repr

/- A table: ordered column names and rows (each row a list of cell values
   in column order).  Models a DataFrame loaded from the first sheet. -/
structure Table where
  cols : List String
  rows : List (List Value)
deriving DecidableEq, Repr

/- ---------- MD5 (model of hashlib.md5(...).hexdigest()) ---------- -/

def m32 (x : Nat) : Nat := x % 4294967296

def rotl32 (x n : Nat) : Nat := m32 ((x <<< n) ||| (x >>> (32 - n)))

/- Little-endian byte expansion: n bytes of x. -/
def toLE : Nat → Nat → List Nat
  | 0, _ => []
  | n + 1, x => (x % 256) :: toLE n (x / 256)

/- Word w of a 64-byte block, read little-endian. -/
def leWord (bs : List Nat) (w : Nat) : Nat :=
  bs.getD (4 * w) 0 + 256 * bs.getD (4 * w + 1) 0 +
    65536 * bs.getD (4 * w + 2) 0 + 16777216 * bs.getD (4 * w + 3) 0

def md5K : List Nat :=
  [0xd76aa478, 0xe8c7b756, 0x242070db, 0xc1bdceee,
   0xf57c0faf, 0x4787c62a, 0xa8304613, 0xfd469501,
   0x698098d8, 0x8b44f7af, 0xffff5bb1, 0x895cd7be,
   0x6b901122, 0xfd987193, 0xa679438e, 0x49b40821,
   0xf61e2562, 0xc040b340, 0x265e5a51, 0xe9b6c7aa,
   0xd62f105d, 0x02441453, 0xd8a1e681, 0xe7d3fbc8,
   0x21e1cde6, 0xc33707d6, 0xf4d50d87, 0x455a14ed,
   0xa9e3e905, 0xfcefa3f8, 0x676f02d9, 0x8d2a4c8a,
   0xfffa3942, 0x8771f681, 0x6d9d6122, 0xfde5380c,
   0xa4beea44, 0x4bdecfa9, 0xf6bb4b60, 0xbebfbc70,
   0x289b7ec6, 0xeaa127fa, 0xd4ef3085, 0x04881d05,
   0xd9d4d039, 0xe6db99e5, 0x1fa27cf8, 0xc4ac5665,
   0xf4292244, 0x432aff97, 0xab9423a7, 0xfc93a039,
   0x655b59c3, 0x8f0ccc92, 0xffeff47d, 0x85845dd1,
   0x6fa87e4f, 0xfe2ce6e0, 0xa3014314, 0x4e0811a1,
   0xf7537e82, 0xbd3af235, 0x2ad7d2bb, 0xeb86d391]

def md5S : List Nat :=
  [7, 12, 17, 22, 7, 12, 17, 22, 7, 12, 17, 22, 7, 12, 17, 22,
   5, 9, 14, 20, 5, 9, 14, 20, 5, 9, 14, 20, 5, 9, 14, 20,
   4, 11, 16, 23, 4, 11, 16, 23, 4, 11, 16, 23, 4, 11, 16, 23,
   6, 10, 15, 21, 6, 10, 15, 21, 6, 10, 15, 21, 6, 10, 15, 21]

def mnot32 (x : Nat) : Nat := x ^^^ 4294967295

def md5Step (M : List Nat) (st : Nat × Nat × Nat × Nat) (i : Nat) :
    Nat × Nat × Nat × Nat :=
  let (a, b, c, d) := st
  let fg : Nat × Nat :=
    if i < 16 then ((b &&& c) ||| (mnot32 b &&& d), i)
    else if i < 32 then ((d &&& b) ||| (mnot32 d &&& c), (5 * i + 1) % 16)
    else if i < 48 then (b ^^^ c ^^^ d, (3 * i + 5) % 16)
    else (c ^^^ (b ||| mnot32 d), (7 * i) % 16)
  let f := m32 (fg.1 + a + md5K.getD i 0 + M.getD fg.2 0)
  (d, m32 (b + rotl32 f (md5S.getD i 0)), b, c)

def md5Block (st : Nat × Nat × Nat × Nat) (block : List Nat) :
    Nat × Nat × Nat × Nat :=
  let M := (List.range 16).map (leWord block)
  let r := (List.range 64).foldl (md5Step M) st
  (m32 (st.1 + r.1), m32 (st.2.1 + r.2.1), m32 (st.2.2.1 + r.2.2.1),
   m32 (st.2.2.2 + r.2.2.2))

def md5Pad (msg : List Nat) : List Nat :=
  let n := msg.length
  let r := (n + 1) % 64
  let zeros := if r ≤ 56 then 56 - r else 120 - r
  msg ++ [128] ++ List.replicate zeros 0 ++
    toLE 8 ((8 * n) % 18446744073709551616)

/- Split into 64-byte blocks.  The fuel argument only bounds the
   recursion depth: every step removes at least one element from a
   non-empty list, so fuel = length is always enough and the zero-fuel
   branch is unreachable. -/
def chunksGo : Nat → List Nat → List (List Nat)
  | _, [] => []
  | 0, _ => []
  | fuel + 1, l => l.take 64 :: chunksGo fuel (l.drop 64)

def chunks64 (l : List Nat) : List (List Nat) := chunksGo l.length l

def hexChar (n : Nat) : Char :=
  if n < 10 then Char.ofNat (48 + n) else Char.ofNat (87 + n)

def byteHex (b : Nat) : List Char := [hexChar (b / 16), hexChar (b % 16)]

/- Lowercase hexadecimal MD5 digest of a byte sequence: the model of
   hashlib.md5(bytes).hexdigest(). -/
def md5hex (msg : List Nat) : String :=
  let st := (chunks64 (md5Pad msg)).foldl md5Block
    (0x67452301, 0xefcdab89, 0x98badcfe, 0x10325476)
  String.mk (((toLE 4 st.1 ++ toLE 4 st.2.1 ++ toLE 4 st.2.2.1 ++
    toLE 4 st.2.2.2).map byteHex).flatten)

/- ---------- UTF-8 encoding (model of str.encode) ---------- -/

def utf8Char (n : Nat) : List Nat :=
  if n < 128 then [n]
  else if n < 2048 then [192 + n / 64, 128 + n % 64]
  else if n < 65536 then
    [224 + n / 4096, 128 + (n / 64) % 64, 128 + n % 64]
  else
    [240 + n / 262144, 128 + (n / 4096) % 64, 128 + (n / 64) % 64,
     128 + n % 64]

def utf8Bytes (s : String) : List Nat :=
  s.data.flatMap (fun c => utf8Char c.toNat)

/- ---------- row_hash ---------- -/

/- Python str(v) for a cell value (str(nan) is "nan", never reached by
   row_hash because NaN is replaced first). -/
def Value.toPyStr : Value → String
  | .na => "nan"
  | .int n => toString n
  | .str s => s

/- Python str.strip(): drop leading and trailing whitespace. -/
def pyStrip (s : String) : String :=
  String.mk
    (((s.data.dropWhile Char.isWhitespace).reverse.dropWhile
      Char.isWhitespace).reverse)

/- One cell as normalized by row_hash:
   vals = ['' if pd.isna(v) else str(v).strip() for v in series.values]. -/
def normVal (v : Value) : String :=
  match v with
  | .na => ""
  | v => pyStrip v.toPyStr

/- The joined normalized string s = '|'.join(vals). -/
def joinedNorm (row : List Value) : String :=
  String.intercalate "|" (row.map normVal)

/- row_hash: hashlib.md5(s.encode('utf-8')).hexdigest(). -/
def row_hash (row : List Value) : String :=
  md5hex (utf8Bytes (joinedNorm row))

/- ---------- find_key_column ---------- -/

def candidates : List String :=
  ["id", "ID", "Id", "codigo", "Código", "codigo_municipio",
   "codigo_munic", "codigoMunicipio", "cod"]

/- Index of a column name in a table (first occurrence). -/
def colIndex (t : Table) (c : String) : Nat := t.cols.indexOf c

/- The values of column c (df[c]). -/
def column (t : Table) (c : String) : List Value :=
  t.rows.map (fun r => r.getD (colIndex t c) .na)

/- First loop of find_key_column: first column whose name is in the
   candidate list. -/
def findCandidate : List String → Option String
  | [] => none
  | c :: rest => if c ∈ candidates then some c else findCandidate rest

/- Second loop: first column whose values are pairwise distinct
   (pandas Series.is_unique; NaN counts as a value, so two NaNs are
   duplicates). -/
def findUnique (t : Table) : List String → Option String
  | [] => none
  | c :: rest => if (column t c).Nodup then some c else findUnique t rest

def find_key_column (t : Table) : Option String :=
  match findCandidate t.cols with
  | some c => some c
  | none => findUnique t t.cols

/- ---------- difflib.SequenceMatcher (isjunk = None) ---------- -/

/- b2j: for each element of b, the ascending list of its indices in b.
   Insertion keeps first-seen key order, as a Python dict does. -/
def b2jAdd (m : List (Char × List Nat)) (c : Char) (i : Nat) :
    List (Char × List Nat) :=
  if m.any (fun p => p.1 == c) then
    m.map (fun p => if p.1 == c then (p.1, p.2 ++ [i]) else p)
  else m ++ [(c, [i])]

/- __chain_b with isjunk = None: build b2j, then (autojunk) when
   len(b) >= 200 delete the popular entries (more than len(b)/100 + 1
   occurrences).  bjunk stays empty, so the junk extension loops of
   find_longest_match never fire. -/
def b2j (b : List Char) : List (Char × List Nat) :=
  let m := b.enum.foldl (fun m p => b2jAdd m p.2 p.1) []
  if 200 ≤ b.length then
    let ntest := b.length / 100 + 1
    m.filter (fun p => decide (p.2.length ≤ ntest))
  else m

def b2jGet (m : List (Char × List Nat)) (c : Char) : List Nat :=
  ((m.find? (fun p => p.1 == c)).map (fun p => p.2)).getD []

def j2get (m : List (Nat × Nat)) (j : Nat) : Nat :=
  ((m.find? (fun p => p.1 == j)).map (fun p => p.2)).getD 0

structure Best where
  i : Nat
  j : Nat
  size : Nat
deriving DecidableEq, Repr

/- Inner loop of find_longest_match for one i: walk the indices j of a[i]
   in b (already restricted to blo <= j < bhi), building newj2len from the
   previous j2len and keeping the first strictly-larger match. -/
def flmInner (j2len : List (Nat × Nat)) (i : Nat) (js : List Nat)
    (best : Best) : List (Nat × Nat) × Best :=
  js.foldl (fun acc j =>
    let k := (if j == 0 then 0 else j2get j2len (j - 1)) + 1
    let nj := (j, k) :: acc.1
    if acc.2.size < k then (nj, ⟨i + 1 - k, j + 1 - k, k⟩) else (nj, acc.2))
    ([], best)

def charAt (l : List Char) (i : Nat) : Char := l.getD i (Char.ofNat 0)

def flmLoop (a : List Char) (bm : List (Char × List Nat))
    (alo ahi blo bhi : Nat) : Best :=
  ((List.range' alo (ahi - alo)).foldl
    (fun (st : List (Nat × Nat) × Best) i =>
      let js := (b2jGet bm (charAt a i)).filter
        (fun j => decide (blo ≤ j) && decide (j < bhi))
      flmInner st.1 i js st.2)
    ([], ⟨alo, blo, 0⟩)).2

/- Left extension loop: while besti > alo and bestj > blo and
   a[besti-1] == b[bestj-1], grow the match leftwards.  When either
   counter is zero the loop guard fails, so structural recursion on the
   counters matches the Python loop exactly. -/
def extLeft (a b : List Char) (alo blo : Nat) : Nat → Nat → Nat
  | 0, _ => 0
  | _ + 1, 0 => 0
  | besti + 1, bestj + 1 =>
    if alo < besti + 1 ∧ blo < bestj + 1 ∧ charAt a besti = charAt b bestj
    then extLeft a b alo blo besti bestj + 1
    else 0

/- Right extension loop: while besti+bestsize < ahi and
   bestj+bestsize < bhi and a[besti+bestsize] == b[bestj+bestsize].
   The fuel starts at ahi - (i + size); the loop guard i+size < ahi
   fails whenever the fuel would run out, so the zero-fuel branch agrees
   with the Python loop. -/
def extRightGo (a b : List Char) (ahi bhi i j : Nat) : Nat → Nat → Nat
  | 0, _ => 0
  | fuel + 1, size =>
    if i + size < ahi ∧ j + size < bhi ∧
        charAt a (i + size) = charAt b (j + size)
    then extRightGo a b ahi bhi i j fuel (size + 1) + 1
    else 0

def extRight (a b : List Char) (ahi bhi i j size : Nat) : Nat :=
  extRightGo a b ahi bhi i j (ahi - (i + size)) size

def find_longest_match (a b : List Char) (bm : List (Char × List Nat))
    (alo ahi blo bhi : Nat) : Best :=
  let bst := flmLoop a bm alo ahi blo bhi
  let l := extLeft a b alo blo bst.i bst.j
  let bi := bst.i - l
  let bj := bst.j - l
  let sz := bst.size + l
  let r := extRight a b ahi bhi bi bj sz
  ⟨bi, bj, sz + r⟩

/- Total size of all matching blocks (the recursion of
   get_matching_blocks; the queue order does not affect the sum).
   The fuel argument bounds the recursion depth; each level shrinks the
   a-range by at least one, so fuel = a-range length + 1 is enough. -/
def matchSum (a b : List Char) (bm : List (Char × List Nat)) :
    Nat → Nat → Nat → Nat → Nat → Nat
  | 0, _, _, _, _ => 0
  | fuel + 1, alo, ahi, blo, bhi =>
    let m := find_longest_match a b bm alo ahi blo bhi
    if m.size = 0 then 0
    else m.size + matchSum a b bm fuel alo m.i blo m.j +
      matchSum a b bm fuel (m.i + m.size) ahi (m.j + m.size) bhi

/- SequenceMatcher(None, sa, sb).ratio() = 2*M/T (T = total length),
   returning 1 when both strings are empty, as _calculate_ratio does.
   Ratios are modelled as exact rationals. -/
def smRatio (sa sb : String) : ℚ :=
  let a := sa.data
  let b := sb.data
  let mtot := matchSum a b (b2j b) (a.length + 1) 0 a.length 0 b.length
  if a.length + b.length = 0 then 1
  else mkRat (2 * mtot) (a.length + b.length)

/- ---------- difflib.get_close_matches with n = 1 ---------- -/

/- Python tuple comparison on (ratio, candidate) pairs, used by
   heapq.nlargest on the scored result list. -/
def tupleLt (p q : ℚ × String) : Prop :=
  p.1 < q.1 ∨ (p.1 = q.1 ∧ p.2 < q.2)

instance (p q : ℚ × String) : Decidable (tupleLt p q) := by
  unfold tupleLt
  infer_instance

def maxTuple : List (ℚ × String) → Option (ℚ × String)
  | [] => none
  | p :: ps => some (ps.foldl (fun m q => if tupleLt m q then q else m) p)

/- get_close_matches(word, possibilities, n=1, cutoff): score each
   possibility x by SequenceMatcher ratio with seq1 = x, seq2 = word
   (the quick-ratio filters are upper bounds of ratio, so they do not
   change the qualifying set), keep those with ratio >= cutoff, and
   return the best by (ratio, x) tuple order. -/
def get_close_matches1 (word : String) (poss : List String) (cutoff : ℚ) :
    Option String :=
  (maxTuple (poss.filterMap (fun x =>
    if cutoff ≤ smRatio x word then some (smRatio x word, x) else none))).map
    (fun p => p.2)

/- ---------- pair_files ---------- -/

/- Python str.lower() (ASCII case folding, which covers the file-name
   comparisons the script performs). -/
def lowerStr (s : String) : String := String.mk (s.data.map Char.toLower)

/- An input spreadsheet file: its path and its stem (base name without
   extension). -/
structure XFile where
  path : String
  stem : String
deriving DecidableEq, Repr

/- Python dict assignment: overwriting an existing key keeps its position
   and replaces its value; a new key is appended. -/
def dictInsert (m : List (String × XFile)) (k : String) (v : XFile) :
    List (String × XFile) :=
  if m.any (fun p => p.1 == k) then
    m.map (fun p => if p.1 == k then (p.1, v) else p)
  else m ++ [(k, v)]

/- stems_b = {f.stem: f for f in files_b} -/
def buildStems (files : List XFile) : List (String × XFile) :=
  files.foldl (fun m f => dictInsert m f.stem f) []

def dictGet (m : List (String × XFile)) (k : String) : Option XFile :=
  (m.find? (fun p => p.1 == k)).map (fun p => p.2)

/- The body of the loop over files_a: first exact case-insensitive stem
   match in dict order wins with score 1.0; otherwise fuzzy matching via
   get_close_matches, reporting SequenceMatcher(None, a_stem, match).ratio()
   as the score.  (The dict lookup stems_b[match] always succeeds because
   the match is one of the dict's keys.) -/
def pairFor (stems_b : List (String × XFile)) (thr : ℚ) (fa : XFile) :
    Option (XFile × XFile × ℚ) :=
  match stems_b.find? (fun p => lowerStr fa.stem == lowerStr p.1) with
  | some p => some (fa, p.2, 1)
  | none =>
    match get_close_matches1 fa.stem (stems_b.map (fun p => p.1)) thr with
    | some m => (dictGet stems_b m).map (fun fb => (fa, fb, smRatio fa.stem m))
    | none => none

def pair_files (files_a files_b : List XFile) (thr : ℚ) :
    List (XFile × XFile × ℚ) :=
  files_a.filterMap (pairFor (buildStems files_b) thr)

/- ---------- pandas operations used by compare_dataframes ---------- -/

/- Remove list element at position i (set_index drops the key column). -/
def dropAt (l : List α) (i : Nat) : List α := l.take i ++ l.drop (i + 1)

/- Key column values of a table (the index of df.set_index(key)). -/
def keysOf (t : Table) (key : String) : List Value :=
  t.rows.map (fun r => r.getD (colIndex t key) .na)

/- The indexed rows of df.set_index(key): key value paired with the row
   minus its key cell. -/
def entriesOf (t : Table) (key : String) : List (Value × List Value) :=
  t.rows.map (fun r => (r.getD (colIndex t key) .na, dropAt r (colIndex t key)))

/- Columns of df.set_index(key). -/
def restCols (t : Table) (key : String) : List String :=
  dropAt t.cols (colIndex t key)

/- Index.unique: distinct values in first-occurrence order. -/
def dedupFirst : List Value → List Value
  | [] => []
  | x :: xs => x :: (dedupFirst xs).filter (fun y => decide (y ≠ x))

/- Python string comparison: lexicographic by code point. -/
def pyStrLt (s t : String) : Bool :=
  go s.data t.data
where go : List Char → List Char → Bool
  | [], [] => false
  | [], _ :: _ => true
  | _ :: _, [] => false
  | c :: cs, d :: ds =>
    if c < d then true else if d < c then false else go cs ds

/- Python/numpy ordering on homogeneous key values. -/
def valueLe (a b : Value) : Bool :=
  match a, b with
  | .int m, .int n => decide (m ≤ n)
  | .str s, .str t => pyStrLt s t || s == t
  | _, _ => false

def insertLe (x : Value) : List Value → List Value
  | [] => [x]
  | y :: ys => if valueLe x y then x :: y :: ys else y :: insertLe x ys

def sortVals : List Value → List Value
  | [] => []
  | x :: xs => insertLe x (sortVals xs)

def allInt (l : List Value) : Bool :=
  l.all (fun v => match v with | .int _ => true | _ => false)

def allStr (l : List Value) : Bool :=
  l.all (fun v => match v with | .str _ => true | _ => false)

/- pandas safe_sort as invoked by Index.difference(sort=None): the values
   are sorted when mutually comparable; a TypeError (mixed types) is
   caught and leaves the first-occurrence order unchanged. -/
def trySort (l : List Value) : List Value :=
  if allInt l || allStr l then sortVals l else l

/- added_keys = b_idx.index.difference(a_idx.index): the distinct B keys
   that do not occur among A's keys, sorted when sortable. -/
def addedKeys (A B : Table) (key : String) : List Value :=
  trySort ((dedupFirst (keysOf B key)).filter
    (fun k => decide (k ∉ keysOf A key)))

/- common = a_idx.index.intersection(b_idx.index) (sort=False): distinct
   A keys, in A's first-occurrence order, that occur among B's keys. -/
def commonKeys (A B : Table) (key : String) : List Value :=
  (dedupFirst (keysOf A key)).filter (fun k => decide (k ∈ keysOf B key))

/- idx.loc[k] as a list of rows: all rows whose key equals k, in table
   order (a Series when exactly one, a DataFrame when several). -/
def locRows (t : Table) (key : String) (k : Value) : List (List Value) :=
  ((entriesOf t key).filter (fun e => decide (e.1 = k))).map (fun e => e.2)

/- The unique row for key k when the key column has no duplicates. -/
def rowFor (t : Table) (key : String) (k : Value) : List Value :=
  (((entriesOf t key).find? (fun e => decide (e.1 = k))).map
    (fun e => e.2)).getD []

/- fillna(''): missing values become the empty string for comparison. -/
def fillnaVal (v : Value) : Value :=
  match v with
  | .na => .str ""
  | v => v

/- row_a.fillna('').equals(row_b.fillna('')): pandas equals demands the
   same kind of object (Series vs DataFrame), the same column labels, the
   same shape, and elementwise-equal values after fillna.  With the loc
   results as row lists this is: equal set_index column lists, equal row
   counts, and equal normalized cells. -/
def rowsEqualNorm (A B : Table) (key : String) (k : Value) : Prop :=
  restCols A key = restCols B key ∧
    (locRows A key k).map (fun r => r.map fillnaVal) =
      (locRows B key k).map (fun r => r.map fillnaVal)

instance (A B : Table) (key : String) (k : Value) :
    Decidable (rowsEqualNorm A B key k) := by
  unfold rowsEqualNorm
  infer_instance

/- modified_keys: the common keys whose rows differ after fillna(''). -/
def modifiedKeysL (A B : Table) (key : String) : List Value :=
  (commonKeys A B key).filter (fun k => decide (¬ rowsEqualNorm A B key k))

/- b_idx.loc[ks].reset_index(): for each key in ks, its B rows with the
   key value restored as the first column; pd.DataFrame() when ks is
   empty. -/
def locTable (B : Table) (key : String) (ks : List Value) : Table :=
  if ks.isEmpty then ⟨[], []⟩
  else ⟨key :: restCols B key,
    ks.flatMap (fun k => (locRows B key k).map (fun r => k :: r))⟩

/- ---------- compare_dataframes ---------- -/

/- The hash branch: added = rows of B whose row_hash is not among A's row
   hashes (membership in set_b is trivially true for B's own hashes), in
   B's order with all columns; modified = pd.DataFrame(). -/
def hashDiff (A B : Table) : Table × Table :=
  (⟨B.cols, B.rows.filter (fun r =>
    decide (row_hash r ∉ A.rows.map row_hash))⟩, ⟨[], []⟩)

/- compare_dataframes(df_a, df_b).  The Python guard is
   `if key and key in df_b.columns`: the key must be truthy (a non-empty
   string) and a column of B; otherwise the hash branch runs. -/
def compare_dataframes (A B : Table) : Table × Table :=
  match find_key_column A with
  | some key =>
    if key ≠ "" ∧ key ∈ B.cols then
      (locTable B key (addedKeys A B key),
       locTable B key (modifiedKeysL A B key))
    else hashDiff A B
  | none => hashDiff A B

/- ---------- concrete inputs used by the witness theorems ---------- -/

/- The spec's end-to-end scenario tables. -/
def exA : Table :=
  ⟨["id", "name"], [[.int 1, .str "Ana"], [.int 2, .str "Luis"]]⟩

def exB : Table :=
  ⟨["id", "name"],
   [[.int 1, .str "Ana"], [.int 2, .str "Luisa"], [.int 3, .str "Maria"]]⟩

/- The spec's no-key scenario tables (both columns of A hold duplicates,
   and no column name is a key candidate). -/
def exNkA : Table := ⟨["x", "y"], [[.int 1, .int 2], [.int 1, .int 2]]⟩

def exNkB : Table := ⟨["x", "y"], [[.int 1, .int 2], [.int 3, .int 4]]⟩

/- Tables sharing the key column but with mismatched non-key columns. -/
def exMisA : Table := ⟨["id", "a"], [[.int 1, .int 5]]⟩

def exMisB : Table := ⟨["id", "b"], [[.int 1, .int 5]]⟩

/- The spec's exact-match pairing scenario files. -/
def exFA : XFile := ⟨"A/Report.xlsx", "Report"⟩

def exFB1 : XFile := ⟨"B/report.xls", "report"⟩

def exFB2 : XFile := ⟨"B/Report2024.xlsx", "Report2024"⟩

/- The spec's fuzzy-threshold scenario files. -/
def exFa23 : XFile := ⟨"A/data_2023.xlsx", "data_2023"⟩

def exFb24 : XFile := ⟨"B/data_2024.xlsx", "data_2024"⟩

/- String-keyed tables: the added keys are strings, which pandas also
   sorts. -/
def exSkA : Table := ⟨["codigo"], [[.str "b"]]⟩

def exSkB : Table := ⟨["codigo"], [[.str "c"], [.str "a"]]⟩

/- Tables whose added key values mix types: pandas cannot sort them and
   keeps their first-occurrence order. -/
def exMxA : Table := ⟨["id"], [[.int 1]]⟩

def exMxB : Table := ⟨["id"], [[.int 2], [.str "a"]]⟩

/- Two B files sharing a stem, plus an A file with that stem. -/
def exDupA : XFile := ⟨"A/X.xlsx", "X"⟩

def exDupB1 : XFile := ⟨"B/X.xls", "X"⟩

def exDupB2 : XFile := ⟨"B/X.xlsx", "X"⟩

/- ---------- helper lemmas ---------- -/

theorem findCandidate_eq_find? (l : List String) :
    findCandidate l = l.find? (fun c => decide (c ∈ candidates)) := by
  induction l with
  | nil => rfl
  | cons c rest ih =>
    simp only [findCandidate, List.find?]
    by_cases h : c ∈ candidates
    · simp [h]
    · simp [h, ih]

theorem findUnique_eq_find? (t : Table) (l : List String) :
    findUnique t l = l.find? (fun c => decide ((column t c).Nodup)) := by
  induction l with
  | nil => rfl
  | cons c rest ih =>
    simp only [findUnique, List.find?]
    by_cases h : (column t c).Nodup
    · simp [h]
    · simp [h, ih]

theorem mem_dedupFirst : ∀ (l : List Value) (x : Value),
    x ∈ dedupFirst l ↔ x ∈ l := by
  intro l
  induction l with
  | nil => simp [dedupFirst]
  | cons y ys ih =>
    intro x
    simp only [dedupFirst, List.mem_cons, List.mem_filter, ih,
      decide_eq_true_eq]
    by_cases hxy : x = y
    · simp [hxy]
    · simp [hxy]

theorem dedupFirst_eq_self : ∀ {l : List Value}, l.Nodup → dedupFirst l = l := by
  intro l
  induction l with
  | nil => intro _; rfl
  | cons y ys ih =>
    intro hnd
    rcases List.nodup_cons.mp hnd with ⟨hy, hys⟩
    have h1 : dedupFirst ys = ys := ih hys
    have h2 : ys.filter (fun z => decide (z ≠ y)) = ys := by
      apply List.filter_eq_self.mpr
      intro z hz
      simp only [decide_eq_true_eq]
      intro hzy
      exact hy (hzy ▸ hz)
    simp only [dedupFirst, h1, h2]

theorem keysOf_eq_map_fst (t : Table) (key : String) :
    keysOf t key = (entriesOf t key).map Prod.fst := by
  simp [keysOf, entriesOf, List.map_map, Function.comp]

/- In an association list with pairwise-distinct keys, filtering on a key
   that occurs yields exactly the entry find? locates. -/
theorem filter_key_eq (es : List (Value × List Value)) (k : Value)
    (hnd : (es.map Prod.fst).Nodup) (hk : k ∈ es.map Prod.fst) :
    ∃ r, es.find? (fun e => decide (e.1 = k)) = some (k, r) ∧
      es.filter (fun e => decide (e.1 = k)) = [(k, r)] := by
  induction es with
  | nil => simp at hk
  | cons e es ih =>
    rcases e with ⟨k1, r1⟩
    simp only [List.map_cons, List.nodup_cons] at hnd
    by_cases h : k1 = k
    · subst h
      refine ⟨r1, ?_, ?_⟩
      · simp [List.find?]
      · have hnil : es.filter (fun e => decide (e.1 = k1)) = [] := by
          apply List.filter_eq_nil_iff.mpr
          intro e he
          simp only [decide_eq_true_eq]
          intro heq
          exact hnd.1 (heq ▸ List.mem_map_of_mem Prod.fst he)
        simp [List.filter, hnil]
    · have hk2 : k ∈ es.map Prod.fst := by
        rcases List.mem_cons.mp hk with h1 | h1
        · exact absurd h1.symm h
        · exact h1
      obtain ⟨r, hf, hl⟩ := ih hnd.2 hk2
      refine ⟨r, ?_, ?_⟩
      · simp [List.find?, h, hf]
      · simp [List.filter, h, hl]

theorem locRows_singleton (t : Table) (key : String) (k : Value)
    (hnd : (keysOf t key).Nodup) (hk : k ∈ keysOf t key) :
    locRows t key k = [rowFor t key k] := by
  rw [keysOf_eq_map_fst] at hnd hk
  obtain ⟨r, hf, hl⟩ := filter_key_eq (entriesOf t key) k hnd hk
  simp [locRows, rowFor, hf, hl]

theorem flatMap_eq_map_of_singleton {α β : Type} (l : List α)
    (g : α → List β) (f : α → β) (h : ∀ x ∈ l, g x = [f x]) :
    l.flatMap g = l.map f := by
  induction l with
  | nil => rfl
  | cons x xs ih =>
    simp only [List.flatMap_cons, List.map_cons,
      h x (List.mem_cons_self x xs)]
    rw [ih (fun y hy => h y (List.mem_cons_of_mem x hy))]
    rfl

/- ---------- claim theorems ---------- -/

/-- C4: key detection returns the first column whose name is in the fixed
candidate list, regardless of duplicate values in that column; the
uniqueness fallback (first column with pairwise-distinct values) is
consulted only when no column name matches, and none is returned when no
column qualifies.  A table whose "id" column holds duplicates still
selects "id". -/
theorem C4_key_detection_precedence (t : Table) :
    (∀ c, t.cols.find? (fun d => decide (d ∈ candidates)) = some c →
      find_key_column t = some c) ∧
    (t.cols.find? (fun d => decide (d ∈ candidates)) = none →
      find_key_column t = t.cols.find? (fun c => decide ((column t c).Nodup))) ∧
    find_key_column (Table.mk ["id", "x"]
      [[Value.int 1, Value.int 1], [Value.int 1, Value.int 2]]) = some "id" := by
  refine ⟨?_, ?_, by decide⟩
  · intro c hc
    unfold find_key_column
    rw [findCandidate_eq_find?, hc]
  · intro hnone
    unfold find_key_column
    rw [findCandidate_eq_find?, hnone, findUnique_eq_find?]

/-- C4 witness: on a concrete table whose first candidate-named column
("id") contains duplicate values, the hypothesis of the first part of
C4_key_detection_precedence holds and key detection returns "id". -/
theorem C4_key_detection_precedence_witness :
    (Table.mk ["a", "id"] [[Value.int 7, Value.int 1],
        [Value.int 7, Value.int 1]]).cols.find?
      (fun d => decide (d ∈ candidates)) = some "id" ∧
    find_key_column (Table.mk ["a", "id"] [[Value.int 7, Value.int 1],
        [Value.int 7, Value.int 1]]) = some "id" :=
  ⟨by decide,
   (C4_key_detection_precedence _).1 "id" (by decide)⟩

/-- C7: row_hash is the lowercase hexadecimal MD5 digest of the UTF-8
encoding of the row's values normalized (missing values become "", other
values are stringified and stripped) and joined with "|"; hence any two
rows with the same joined normalized string collide, in particular
["a|b", "c"] and ["a", "b|c"].  The md5hex model is pinned to reference
digests of the MD5 algorithm. -/
theorem C7_row_fingerprint :
    (∀ row : List Value, row_hash row = md5hex (utf8Bytes (joinedNorm row))) ∧
    (∀ r1 r2 : List Value, joinedNorm r1 = joinedNorm r2 →
      row_hash r1 = row_hash r2) ∧
    row_hash [Value.str "a|b", Value.str "c"] =
      row_hash [Value.str "a", Value.str "b|c"] ∧
    md5hex (utf8Bytes "") = "d41d8cd98f00b204e9800998ecf8427e" ∧
    md5hex (utf8Bytes "a|b|c") = "2e077b3ec5932ac3cf914ebdf242b4ee" := by
  refine ⟨fun row => rfl, ?_, ?_, ?_, ?_⟩
  · intro r1 r2 h
    unfold row_hash
    rw [h]
  · exact congrArg (fun s => md5hex (utf8Bytes s))
      (by decide : joinedNorm [Value.str "a|b", Value.str "c"] =
        joinedNorm [Value.str "a", Value.str "b|c"])
  · set_option maxRecDepth 100000 in decide
  · set_option maxRecDepth 100000 in decide

/-- C7 witness: at the concrete rows ["a|b","c"] and ["a","b|c"] the
joined normalized strings coincide, and the congruence part of
C7_row_fingerprint yields equal fingerprints. -/
theorem C7_row_fingerprint_witness :
    joinedNorm [Value.str "a|b", Value.str "c"] =
      joinedNorm [Value.str "a", Value.str "b|c"] ∧
    row_hash [Value.str "a|b", Value.str "c"] =
      row_hash [Value.str "a", Value.str "b|c"] :=
  ⟨by decide, C7_row_fingerprint.2.1 _ _ (by decide)⟩

/-- C10: fuzzy matching is case-sensitive although exact matching is
case-insensitive: with stems "ABCD" (folder A) and "abcde" (folder B) and
threshold 4/5, no pair is produced — the raw-name ratio is 0 — although
the case-folded names have ratio 8/9, which meets the threshold (and the
same files with pre-folded stems are paired). -/
theorem C10_fuzzy_case_sensitive :
    pair_files [⟨"A/ABCD.xlsx", "ABCD"⟩] [⟨"B/abcde.xlsx", "abcde"⟩]
      (mkRat 4 5) = [] ∧
    smRatio "abcde" "ABCD" < mkRat 4 5 ∧
    mkRat 4 5 ≤ smRatio (lowerStr "abcde") (lowerStr "ABCD") ∧
    pair_files [⟨"A/ABCD.xlsx", lowerStr "ABCD"⟩]
      [⟨"B/abcde.xlsx", lowerStr "abcde"⟩] (mkRat 4 5) ≠ [] := by
  refine ⟨?_, by decide, by decide, ?_⟩
  · set_option maxRecDepth 10000 in decide
  · set_option maxRecDepth 10000 in decide

/-- C1 counterexample: with tableA = [{id:1,name:a}] and tableB =
[{id:3,name:c},{id:2,name:b}] the added rows are emitted sorted by key
value ([2,b] before [3,c]), not in B's original row order ([3,c] before
[2,b]) as the claim states. -/
theorem C1_counterexample :
    (compare_dataframes ⟨["id", "name"], [[Value.int 1, Value.str "a"]]⟩
        ⟨["id", "name"], [[Value.int 3, Value.str "c"],
          [Value.int 2, Value.str "b"]]⟩).1.rows =
      [[Value.int 2, Value.str "b"], [Value.int 3, Value.str "c"]] ∧
    (compare_dataframes ⟨["id", "name"], [[Value.int 1, Value.str "a"]]⟩
        ⟨["id", "name"], [[Value.int 3, Value.str "c"],
          [Value.int 2, Value.str "b"]]⟩).1.rows ≠
      [[Value.int 3, Value.str "c"], [Value.int 2, Value.str "b"]] := by
  exact ⟨by decide, by decide⟩

/-- C3: with no usable shared key column (no key detected in A, or the
detected key name absent from B's columns), the added table is exactly
the rows of B whose row fingerprint does not occur among the
fingerprints of A's rows, in B's row order with all original columns,
and the modified table is always empty. -/
theorem C3_nokey_hash_diff (A B : Table)
    (h : find_key_column A = none ∨
      ∃ k, find_key_column A = some k ∧ k ∉ B.cols) :
    (compare_dataframes A B).1.cols = B.cols ∧
    (compare_dataframes A B).1.rows =
      B.rows.filter (fun r => decide (row_hash r ∉ A.rows.map row_hash)) ∧
    (compare_dataframes A B).2 = Table.mk [] [] := by
  have hcd : compare_dataframes A B = hashDiff A B := by
    rcases h with h | ⟨k, hk, hkb⟩
    · simp [compare_dataframes, h]
    · simp [compare_dataframes, hk, hkb]
  rw [hcd]
  exact ⟨rfl, rfl, rfl⟩

/-- C3 witness: the spec's no-key scenario.  No key is detected in A, and
applying C3_nokey_hash_diff plus direct evaluation gives added =
[{x:3,y:4}] and modified empty. -/
theorem C3_nokey_hash_diff_witness :
    find_key_column exNkA = none ∧
    ((compare_dataframes exNkA exNkB).1.cols = exNkB.cols ∧
      (compare_dataframes exNkA exNkB).1.rows =
        exNkB.rows.filter (fun r =>
          decide (row_hash r ∉ exNkA.rows.map row_hash)) ∧
      (compare_dataframes exNkA exNkB).2 = Table.mk [] []) ∧
    (compare_dataframes exNkA exNkB).1.rows = [[Value.int 3, Value.int 4]] :=
  ⟨by decide,
   C3_nokey_hash_diff exNkA exNkB (Or.inl (by decide)),
   by set_option maxRecDepth 400000 in decide⟩

/-- C5: whenever some entry of the B stem dictionary matches an A file's
stem case-insensitively, pair_files emits for that A file a pair with the
first such entry's file and score exactly 1.0, independently of the
threshold (no fuzzy matching is performed for it). -/
theorem C5_exact_match_wins (files_a files_b : List XFile) (thr : ℚ)
    (fa : XFile) (pr : String × XFile)
    (hfa : fa ∈ files_a)
    (hfind : (buildStems files_b).find?
      (fun p => lowerStr fa.stem == lowerStr p.1) = some pr) :
    pairFor (buildStems files_b) thr fa = some (fa, pr.2, 1) ∧
    (fa, pr.2, 1) ∈ pair_files files_a files_b thr := by
  have h1 : pairFor (buildStems files_b) thr fa = some (fa, pr.2, 1) := by
    unfold pairFor
    rw [hfind]
  exact ⟨h1, List.mem_filterMap.mpr ⟨fa, hfa, h1⟩⟩

/-- C5 witness: A file "Report" against B files {"report", "Report2024"}
at threshold 1/2 is paired with "report" at score 1.0. -/
theorem C5_exact_match_wins_witness :
    (buildStems [exFB1, exFB2]).find?
      (fun p => lowerStr exFA.stem == lowerStr p.1) = some ("report", exFB1) ∧
    pairFor (buildStems [exFB1, exFB2]) (mkRat 1 2) exFA =
      some (exFA, exFB1, 1) ∧
    (exFA, exFB1, 1) ∈ pair_files [exFA] [exFB1, exFB2] (mkRat 1 2) :=
  ⟨by decide,
   (C5_exact_match_wins [exFA] [exFB1, exFB2] (mkRat 1 2) exFA
     ("report", exFB1) (by decide) (by decide)).1,
   (C5_exact_match_wins [exFA] [exFB1, exFB2] (mkRat 1 2) exFA
     ("report", exFB1) (by decide) (by decide)).2⟩

theorem insertLe_perm (x : Value) (l : List Value) :
    (insertLe x l).Perm (x :: l) := by
  induction l with
  | nil => exact List.Perm.refl _
  | cons y ys ih =>
    unfold insertLe
    by_cases h : valueLe x y = true
    · rw [if_pos h]
    · rw [if_neg h]
      exact (ih.cons y).trans (List.Perm.swap x y ys)

theorem sortVals_perm (l : List Value) : (sortVals l).Perm l := by
  induction l with
  | nil => exact List.Perm.refl _
  | cons x xs ih => exact (insertLe_perm x (sortVals xs)).trans (ih.cons x)

theorem valueLe_int_iff (m n : Int) :
    valueLe (.int m) (.int n) = true ↔ m ≤ n := by
  simp [valueLe]

theorem pyStrLt_go_trans : ∀ (a b c : List Char),
    pyStrLt.go a b = true → pyStrLt.go b c = true →
    pyStrLt.go a c = true := by
  intro a
  induction a with
  | nil =>
    intro b c h1 h2
    cases b with
    | nil => simp [pyStrLt.go] at h1
    | cons y ys =>
      cases c with
      | nil => simp [pyStrLt.go] at h2
      | cons z zs => rfl
  | cons x xs ih =>
    intro b c h1 h2
    cases b with
    | nil => simp [pyStrLt.go] at h1
    | cons y ys =>
      cases c with
      | nil => simp [pyStrLt.go] at h2
      | cons z zs =>
        by_cases hxy : x < y
        · by_cases hyz : y < z
          · simp [pyStrLt.go, lt_trans hxy hyz]
          · by_cases hzy : z < y
            · simp [pyStrLt.go, hyz, hzy] at h2
            · have hy : y = z := le_antisymm (not_lt.mp hzy) (not_lt.mp hyz)
              subst hy
              simp [pyStrLt.go, hxy]
        · by_cases hyx : y < x
          · simp [pyStrLt.go, hxy, hyx] at h1
          · have hx : x = y := le_antisymm (not_lt.mp hyx) (not_lt.mp hxy)
            subst hx
            simp only [pyStrLt.go, lt_irrefl, if_false] at h1
            by_cases hxz : x < z
            · simp [pyStrLt.go, hxz]
            · by_cases hzx : z < x
              · simp [pyStrLt.go, hxz, hzx] at h2
              · have hz : x = z := le_antisymm (not_lt.mp hzx) (not_lt.mp hxz)
                subst hz
                simp only [pyStrLt.go, lt_irrefl, if_false] at h2 ⊢
                exact ih ys zs h1 h2

theorem pyStrLt_go_trichotomy : ∀ (a b : List Char),
    pyStrLt.go a b = true ∨ a = b ∨ pyStrLt.go b a = true := by
  intro a
  induction a with
  | nil =>
    intro b
    cases b with
    | nil => exact Or.inr (Or.inl rfl)
    | cons d ds => exact Or.inl rfl
  | cons c cs ih =>
    intro b
    cases b with
    | nil => exact Or.inr (Or.inr rfl)
    | cons d ds =>
      rcases lt_trichotomy c d with h | h | h
      · exact Or.inl (by simp [pyStrLt.go, h])
      · subst h
        rcases ih ds with h2 | h2 | h2
        · exact Or.inl (by simp [pyStrLt.go, lt_irrefl, h2])
        · exact Or.inr (Or.inl (by rw [h2]))
        · exact Or.inr (Or.inr (by simp [pyStrLt.go, lt_irrefl, h2]))
      · exact Or.inr (Or.inr (by simp [pyStrLt.go, h]))

theorem valueLe_str_iff (s t : String) :
    valueLe (.str s) (.str t) = true ↔ pyStrLt s t = true ∨ s = t := by
  simp [valueLe]

theorem valueLe_total_int {a b : Value} (ha : ∃ m : Int, a = .int m)
    (hb : ∃ n : Int, b = .int n) :
    valueLe a b = true ∨ valueLe b a = true := by
  obtain ⟨m, rfl⟩ := ha
  obtain ⟨n, rfl⟩ := hb
  simp only [valueLe_int_iff]
  omega

theorem valueLe_trans_int {a b c : Value} (ha : ∃ m : Int, a = .int m)
    (hb : ∃ n : Int, b = .int n) (hc : ∃ p : Int, c = .int p)
    (h1 : valueLe a b = true) (h2 : valueLe b c = true) :
    valueLe a c = true := by
  obtain ⟨m, rfl⟩ := ha
  obtain ⟨n, rfl⟩ := hb
  obtain ⟨p, rfl⟩ := hc
  rw [valueLe_int_iff] at h1 h2 ⊢
  omega

theorem valueLe_total_str {a b : Value} (ha : ∃ s : String, a = .str s)
    (hb : ∃ t : String, b = .str t) :
    valueLe a b = true ∨ valueLe b a = true := by
  obtain ⟨s, rfl⟩ := ha
  obtain ⟨t, rfl⟩ := hb
  rw [valueLe_str_iff, valueLe_str_iff]
  rcases pyStrLt_go_trichotomy s.data t.data with h | h | h
  · exact Or.inl (Or.inl h)
  · refine Or.inl (Or.inr ?_)
    cases s with
    | mk ls =>
      cases t with
      | mk lt2 =>
        simp only at h
        rw [h]
  · exact Or.inr (Or.inl h)

theorem valueLe_trans_str {a b c : Value} (ha : ∃ s : String, a = .str s)
    (hb : ∃ t : String, b = .str t) (hc : ∃ u : String, c = .str u)
    (h1 : valueLe a b = true) (h2 : valueLe b c = true) :
    valueLe a c = true := by
  obtain ⟨s, rfl⟩ := ha
  obtain ⟨t, rfl⟩ := hb
  obtain ⟨u, rfl⟩ := hc
  rw [valueLe_str_iff] at h1 h2 ⊢
  rcases h1 with h1 | rfl
  · rcases h2 with h2 | rfl
    · exact Or.inl (pyStrLt_go_trans s.data t.data u.data h1 h2)
    · exact Or.inl h1
  · exact h2

/- Insertion keeps sortedness on any class of values over which valueLe
   is total and transitive (instantiated with all-int and all-str). -/
theorem insertLe_sorted (P : Value → Prop)
    (htot : ∀ a b, P a → P b → valueLe a b = true ∨ valueLe b a = true)
    (htrans : ∀ a b c, P a → P b → P c → valueLe a b = true →
      valueLe b c = true → valueLe a c = true)
    (x : Value) (l : List Value) (hx : P x) (hl : ∀ v ∈ l, P v)
    (hs : l.Sorted (fun a b => valueLe a b = true)) :
    (insertLe x l).Sorted (fun a b => valueLe a b = true) := by
  induction l with
  | nil => simp [insertLe]
  | cons y ys ih =>
    rw [List.sorted_cons] at hs
    unfold insertLe
    by_cases h : valueLe x y = true
    · rw [if_pos h, List.sorted_cons]
      refine ⟨?_, List.sorted_cons.mpr hs⟩
      intro b hb
      rcases List.mem_cons.mp hb with rfl | hb2
      · exact h
      · exact htrans x y b hx (hl y (List.mem_cons_self y ys))
          (hl b (List.mem_cons_of_mem y hb2)) h (hs.1 b hb2)
    · rw [if_neg h, List.sorted_cons]
      constructor
      · intro b hb
        have hmem := (insertLe_perm x ys).mem_iff.mp hb
        rcases List.mem_cons.mp hmem with hbx | hb2
        · rw [hbx]
          rcases htot x y hx (hl y (List.mem_cons_self y ys)) with h1 | h1
          · exact absurd h1 h
          · exact h1
        · exact hs.1 b hb2
      · exact ih (fun v hv => hl v (List.mem_cons_of_mem y hv)) hs.2

theorem sortVals_sorted (P : Value → Prop)
    (htot : ∀ a b, P a → P b → valueLe a b = true ∨ valueLe b a = true)
    (htrans : ∀ a b c, P a → P b → P c → valueLe a b = true →
      valueLe b c = true → valueLe a c = true)
    (l : List Value) (hl : ∀ v ∈ l, P v) :
    (sortVals l).Sorted (fun a b => valueLe a b = true) := by
  induction l with
  | nil => simp [sortVals]
  | cons x xs ih =>
    unfold sortVals
    refine insertLe_sorted P htot htrans x (sortVals xs)
      (hl x (List.mem_cons_self x xs)) ?_
      (ih (fun v hv => hl v (List.mem_cons_of_mem x hv)))
    intro v hv
    exact hl v (List.mem_cons_of_mem x ((sortVals_perm xs).mem_iff.mp hv))

theorem allInt_iff (l : List Value) :
    allInt l = true ↔ ∀ v ∈ l, ∃ n : Int, v = .int n := by
  simp only [allInt, List.all_eq_true]
  constructor
  · intro h v hv
    have h2 := h v hv
    cases v with
    | int n => exact ⟨n, rfl⟩
    | na => simp at h2
    | str s => simp at h2
  · intro h v hv
    obtain ⟨n, rfl⟩ := h v hv
    rfl

theorem allStr_iff (l : List Value) :
    allStr l = true ↔ ∀ v ∈ l, ∃ s : String, v = .str s := by
  simp only [allStr, List.all_eq_true]
  constructor
  · intro h v hv
    have h2 := h v hv
    cases v with
    | str s => exact ⟨s, rfl⟩
    | na => simp at h2
    | int n => simp at h2
  · intro h v hv
    obtain ⟨s, rfl⟩ := h v hv
    rfl

theorem trySort_perm (l : List Value) : (trySort l).Perm l := by
  unfold trySort
  split
  · exact sortVals_perm l
  · exact List.Perm.refl l

/- When the key values are homogeneous (all ints or all strings — the
   cases pandas can sort) trySort produces an ascending list. -/
theorem trySort_sorted (l : List Value)
    (h : (allInt l || allStr l) = true) :
    (trySort l).Sorted (fun a b => valueLe a b = true) := by
  unfold trySort
  rw [if_pos h]
  have h2 : allInt l = true ∨ allStr l = true := by simpa using h
  rcases h2 with hi | hs
  · exact sortVals_sorted (fun v => ∃ n : Int, v = .int n)
      (fun a b ha hb => valueLe_total_int ha hb)
      (fun a b c ha hb hc h1 h2 => valueLe_trans_int ha hb hc h1 h2)
      l ((allInt_iff l).mp hi)
  · exact sortVals_sorted (fun v => ∃ s : String, v = .str s)
      (fun a b ha hb => valueLe_total_str ha hb)
      (fun a b c ha hb hc h1 h2 => valueLe_trans_str ha hb hc h1 h2)
      l ((allStr_iff l).mp hs)

/- When the key values are not sortable (mixed types), the TypeError
   pandas catches leaves the first-occurrence order unchanged. -/
theorem trySort_eq_self (l : List Value)
    (h : (allInt l || allStr l) = false) : trySort l = l := by
  unfold trySort
  rw [if_neg (by rw [h]; exact Bool.false_ne_true)]

/-- C1 (amended): with a usable shared key column and duplicate-free B
keys, the added table consists of exactly the rows of B whose key value
does not appear among A's key values, with columns ordered as the key
column first followed by B's remaining columns in their defined order —
but listed in ascending key order whenever the added key values are
homogeneously sortable (all numeric or all string: pandas
Index.difference sorts them), and in B's first-occurrence order only
when they are not sortable, rather than in B's original row order in
general. -/
theorem C1_added_sorted (A B : Table) (key : String)
    (hk : find_key_column A = some key) (hne : key ≠ "")
    (hmem : key ∈ B.cols)
    (hnB : (keysOf B key).Nodup) :
    ∃ ks : List Value,
      ks.Perm ((dedupFirst (keysOf B key)).filter
        (fun k => decide (k ∉ keysOf A key))) ∧
      (compare_dataframes A B).1.rows =
        ks.map (fun k => k :: rowFor B key k) ∧
      (ks ≠ [] → (compare_dataframes A B).1.cols = key :: restCols B key) ∧
      (∀ k, k ∈ ks ↔ k ∈ keysOf B key ∧ k ∉ keysOf A key) ∧
      ((allInt ((dedupFirst (keysOf B key)).filter
          (fun k => decide (k ∉ keysOf A key))) ||
        allStr ((dedupFirst (keysOf B key)).filter
          (fun k => decide (k ∉ keysOf A key)))) = true →
        ks.Sorted (fun a b => valueLe a b = true)) ∧
      ((allInt ((dedupFirst (keysOf B key)).filter
          (fun k => decide (k ∉ keysOf A key))) ||
        allStr ((dedupFirst (keysOf B key)).filter
          (fun k => decide (k ∉ keysOf A key)))) = false →
        ks = (dedupFirst (keysOf B key)).filter
          (fun k => decide (k ∉ keysOf A key))) := by
  have hcd : compare_dataframes A B =
      (locTable B key (addedKeys A B key),
       locTable B key (modifiedKeysL A B key)) := by
    simp [compare_dataframes, hk, hne, hmem]
  set base := (dedupFirst (keysOf B key)).filter
    (fun k => decide (k ∉ keysOf A key)) with hbase
  have hadded : addedKeys A B key = trySort base := by
    rw [hbase]
    rfl
  have hperm : (trySort base).Perm base := trySort_perm base
  have hmemB : ∀ k ∈ trySort base, k ∈ keysOf B key := by
    intro k hkk
    have h2 := hperm.mem_iff.mp hkk
    have h3 := List.mem_filter.mp h2
    exact (mem_dedupFirst _ k).mp h3.1
  refine ⟨trySort base, hperm, ?_, ?_, ?_, ?_, ?_⟩
  · rw [hcd]
    show (locTable B key (addedKeys A B key)).rows = _
    rw [hadded]
    unfold locTable
    by_cases hnil : trySort base = []
    · simp [hnil]
    · rw [if_neg (by simpa [List.isEmpty_iff] using hnil)]
      exact flatMap_eq_map_of_singleton (trySort base) _ _
        (fun k hkk => by
          rw [locRows_singleton B key k hnB (hmemB k hkk)]
          rfl)
  · intro hnil
    rw [hcd]
    show (locTable B key (addedKeys A B key)).cols = _
    rw [hadded]
    unfold locTable
    rw [if_neg (by simpa [List.isEmpty_iff] using hnil)]
  · intro k
    rw [hperm.mem_iff, hbase, List.mem_filter]
    simp [mem_dedupFirst]
  · intro hhom
    exact trySort_sorted base hhom
  · intro hhom
    exact trySort_eq_self base hhom

/-- C1 witness: the hypotheses of C1_added_sorted hold at the spec's
end-to-end scenario, whose added table evaluates to the single row
{id:3,name:Maria} with columns [id,name]; a string-keyed instance
evaluates to added keys sorted ascending ("a" before "c" although B
lists "c" first), and a mixed-key instance keeps B's first-occurrence
order. -/
theorem C1_added_sorted_witness :
    find_key_column exA = some "id" ∧
    (compare_dataframes exA exB).1.rows = [[Value.int 3, Value.str "Maria"]] ∧
    (compare_dataframes exA exB).1.cols = ["id", "name"] ∧
    (∃ ks : List Value,
      ks.Perm ((dedupFirst (keysOf exB "id")).filter
        (fun k => decide (k ∉ keysOf exA "id"))) ∧
      (compare_dataframes exA exB).1.rows =
        ks.map (fun k => k :: rowFor exB "id" k) ∧
      (ks ≠ [] → (compare_dataframes exA exB).1.cols =
        "id" :: restCols exB "id") ∧
      (∀ k, k ∈ ks ↔ k ∈ keysOf exB "id" ∧ k ∉ keysOf exA "id") ∧
      ((allInt ((dedupFirst (keysOf exB "id")).filter
          (fun k => decide (k ∉ keysOf exA "id"))) ||
        allStr ((dedupFirst (keysOf exB "id")).filter
          (fun k => decide (k ∉ keysOf exA "id")))) = true →
        ks.Sorted (fun a b => valueLe a b = true)) ∧
      ((allInt ((dedupFirst (keysOf exB "id")).filter
          (fun k => decide (k ∉ keysOf exA "id"))) ||
        allStr ((dedupFirst (keysOf exB "id")).filter
          (fun k => decide (k ∉ keysOf exA "id")))) = false →
        ks = (dedupFirst (keysOf exB "id")).filter
          (fun k => decide (k ∉ keysOf exA "id")))) ∧
    (compare_dataframes exSkA exSkB).1.rows =
      [[Value.str "a"], [Value.str "c"]] ∧
    (compare_dataframes exMxA exMxB).1.rows =
      [[Value.int 2], [Value.str "a"]] :=
  ⟨by decide, by decide, by decide,
   C1_added_sorted exA exB "id" (by decide) (by decide) (by decide)
     (by decide),
   by decide, by decide⟩

/-- C2: with a usable shared key column, duplicate-free key columns on
both sides, and equal non-key columns, a key present in both tables is
reported as modified iff the two rows differ after missing values are
replaced by empty strings for comparison only; modified rows are taken
from tableB with original values preserved and the key as first column,
in the order the common keys are encountered along A's key values. -/
theorem C2_modified_iff (A B : Table) (key : String)
    (hk : find_key_column A = some key) (hne : key ≠ "")
    (hmem : key ∈ B.cols)
    (hnA : (keysOf A key).Nodup) (hnB : (keysOf B key).Nodup)
    (hcols : restCols A key = restCols B key) :
    modifiedKeysL A B key = (keysOf A key).filter (fun k =>
      decide (k ∈ keysOf B key) &&
      decide ((rowFor A key k).map fillnaVal ≠
        (rowFor B key k).map fillnaVal)) ∧
    (∀ k, k ∈ modifiedKeysL A B key ↔
      (k ∈ keysOf A key ∧ k ∈ keysOf B key ∧
        (rowFor A key k).map fillnaVal ≠ (rowFor B key k).map fillnaVal)) ∧
    (compare_dataframes A B).2.rows =
      (modifiedKeysL A B key).map (fun k => k :: rowFor B key k) ∧
    (modifiedKeysL A B key ≠ [] →
      (compare_dataframes A B).2.cols = key :: restCols B key) := by
  have hchar : modifiedKeysL A B key = (keysOf A key).filter (fun k =>
      decide (k ∈ keysOf B key) &&
      decide ((rowFor A key k).map fillnaVal ≠
        (rowFor B key k).map fillnaVal)) := by
    unfold modifiedKeysL commonKeys
    rw [dedupFirst_eq_self hnA, List.filter_filter]
    apply List.filter_congr
    intro k hkA
    by_cases hkB : k ∈ keysOf B key
    · have hlocA := locRows_singleton A key k hnA hkA
      have hiff : rowsEqualNorm A B key k ↔
          (rowFor A key k).map fillnaVal = (rowFor B key k).map fillnaVal := by
        unfold rowsEqualNorm
        rw [hlocA, locRows_singleton B key k hnB hkB]
        simp [hcols]
      simp [hkB, hiff]
    · simp [hkB]
  have hmem2 : ∀ k, k ∈ modifiedKeysL A B key ↔
      (k ∈ keysOf A key ∧ k ∈ keysOf B key ∧
        (rowFor A key k).map fillnaVal ≠ (rowFor B key k).map fillnaVal) := by
    intro k
    rw [hchar, List.mem_filter]
    simp
  have hcd : compare_dataframes A B =
      (locTable B key (addedKeys A B key),
       locTable B key (modifiedKeysL A B key)) := by
    simp [compare_dataframes, hk, hne, hmem]
  refine ⟨hchar, hmem2, ?_, ?_⟩
  · rw [hcd]
    show (locTable B key (modifiedKeysL A B key)).rows = _
    unfold locTable
    by_cases hnil : modifiedKeysL A B key = []
    · simp [hnil]
    · rw [if_neg (by simpa [List.isEmpty_iff] using hnil)]
      exact flatMap_eq_map_of_singleton (modifiedKeysL A B key) _ _
        (fun k hkk => by
          rw [locRows_singleton B key k hnB ((hmem2 k).mp hkk).2.1]
          rfl)
  · intro hnil
    rw [hcd]
    show (locTable B key (modifiedKeysL A B key)).cols = _
    unfold locTable
    rw [if_neg (by simpa [List.isEmpty_iff] using hnil)]

/-- C2 witness: the spec's end-to-end scenario.  The hypotheses of
C2_modified_iff hold at tableA/tableB, and the modified table evaluates
to the single row {id:2,name:Luisa} taken from tableB. -/
theorem C2_modified_iff_witness :
    find_key_column exA = some "id" ∧
    (compare_dataframes exA exB).2.rows =
      [[Value.int 2, Value.str "Luisa"]] ∧
    (compare_dataframes exA exB).2.cols = ["id", "name"] ∧
    (modifiedKeysL exA exB "id" = (keysOf exA "id").filter (fun k =>
      decide (k ∈ keysOf exB "id") &&
      decide ((rowFor exA "id" k).map fillnaVal ≠
        (rowFor exB "id" k).map fillnaVal)) ∧
    (∀ k, k ∈ modifiedKeysL exA exB "id" ↔
      (k ∈ keysOf exA "id" ∧ k ∈ keysOf exB "id" ∧
        (rowFor exA "id" k).map fillnaVal ≠
          (rowFor exB "id" k).map fillnaVal)) ∧
    (compare_dataframes exA exB).2.rows =
      (modifiedKeysL exA exB "id").map (fun k => k :: rowFor exB "id" k) ∧
    (modifiedKeysL exA exB "id" ≠ [] →
      (compare_dataframes exA exB).2.cols = "id" :: restCols exB "id")) :=
  ⟨by decide, by decide, by decide,
   C2_modified_iff exA exB "id" (by decide) (by decide) (by decide)
     (by decide) (by decide) (by decide)⟩

/-- C8: when a usable shared key is in play but the two tables'
remaining column sets are mismatched (some non-key column present in one
table and not the other), the per-key comparison is total (the embedding
is a total function, as pandas equals simply returns False on mismatched
labels) and every key present in both tables is reported as modified. -/
theorem C8_mismatched_cols_modified (A B : Table) (key : String)
    (hk : find_key_column A = some key) (hne : key ≠ "")
    (hmem : key ∈ B.cols)
    (hmis : ∃ c, (c ∈ restCols A key ∧ c ∉ restCols B key) ∨
      (c ∈ restCols B key ∧ c ∉ restCols A key)) :
    ∀ k, k ∈ keysOf A key → k ∈ keysOf B key →
      k ∈ modifiedKeysL A B key := by
  have hne2 : restCols A key ≠ restCols B key := by
    obtain ⟨c, hc | hc⟩ := hmis
    · exact fun h => hc.2 (h ▸ hc.1)
    · exact fun h => hc.2 (h.symm ▸ hc.1)
  intro k hkA hkB
  unfold modifiedKeysL commonKeys
  apply List.mem_filter.mpr
  refine ⟨List.mem_filter.mpr ⟨(mem_dedupFirst _ k).mpr hkA, by simpa using hkB⟩, ?_⟩
  simp only [decide_eq_true_eq]
  intro hEq
  exact hne2 hEq.1

/-- C8 witness: tables with shared key "id" but disjoint non-key columns
("a" vs "b") and identical cell values: the common key 1 is reported as
modified and the modified output carries B's row. -/
theorem C8_mismatched_cols_modified_witness :
    Value.int 1 ∈ keysOf exMisA "id" ∧
    Value.int 1 ∈ keysOf exMisB "id" ∧
    Value.int 1 ∈ modifiedKeysL exMisA exMisB "id" ∧
    (compare_dataframes exMisA exMisB).2.rows = [[Value.int 1, Value.int 5]] ∧
    (compare_dataframes exMisA exMisB).2.cols = ["id", "b"] :=
  ⟨by decide, by decide,
   C8_mismatched_cols_modified exMisA exMisB "id" (by decide) (by decide)
     (by decide) ⟨"a", Or.inl ⟨by decide, by decide⟩⟩ (Value.int 1)
     (by decide) (by decide),
   by decide, by decide⟩

theorem buildStems_append (fs : List XFile) (f : XFile) :
    buildStems (fs ++ [f]) = dictInsert (buildStems fs) f.stem f := by
  unfold buildStems
  rw [List.foldl_append, List.foldl_cons, List.foldl_nil]

theorem dictInsert_entry (m : List (String × XFile)) (k : String) (v : XFile)
    (p : String × XFile) (hp : p ∈ dictInsert m k v) :
    p = (k, v) ∨ (p ∈ m ∧ p.1 ≠ k) := by
  unfold dictInsert at hp
  by_cases hany : m.any (fun q => q.1 == k)
  · rw [if_pos hany] at hp
    obtain ⟨q, hq, hpq⟩ := List.mem_map.mp hp
    by_cases hqk : q.1 == k
    · left
      rw [if_pos hqk] at hpq
      rw [← hpq]
      have : q.1 = k := by simpa using hqk
      rw [this]
    · right
      rw [if_neg hqk] at hpq
      rw [← hpq]
      exact ⟨hq, by simpa using hqk⟩
  · rw [if_neg hany] at hp
    rcases List.mem_append.mp hp with h | h
    · right
      refine ⟨h, ?_⟩
      intro hpk
      exact hany (List.any_eq_true.mpr ⟨p, h, by simpa using hpk⟩)
    · left
      simpa using h

/- Each entry of the stems dictionary maps a stem to the LAST file with
   that stem in the enumeration order (later same-stem files overwrite
   earlier ones). -/
theorem buildStems_last (files : List XFile) :
    ∀ p ∈ buildStems files, p.2.stem = p.1 ∧
      (files.filter (fun f => f.stem == p.1)).getLast? = some p.2 := by
  induction files using List.reverseRecOn with
  | nil => intro p hp; simp [buildStems] at hp
  | append_singleton fs f ih =>
    intro p hp
    rw [buildStems_append] at hp
    rcases dictInsert_entry _ _ _ p hp with rfl | ⟨hpm, hpk⟩
    · refine ⟨rfl, ?_⟩
      rw [List.filter_append]
      have h1 : [f].filter (fun g => g.stem == f.stem) = [f] := by simp
      rw [h1, List.getLast?_concat]
    · obtain ⟨hstem, hlast⟩ := ih p hpm
      refine ⟨hstem, ?_⟩
      rw [List.filter_append]
      have h1 : [f].filter (fun g => g.stem == p.1) = [] := by
        simp only [List.filter, List.filter_nil]
        have : (f.stem == p.1) = false :=
          beq_eq_false_iff_ne.mpr (fun h => hpk h.symm)
        rw [this]
      rw [h1, List.append_nil]
      exact hlast

/- Every B file occurring in an emitted pair is a value of the stems
   dictionary. -/
theorem pair_snd_mem_stems (files_a files_b : List XFile) (thr : ℚ)
    (fa fb : XFile) (r : ℚ)
    (h : (fa, fb, r) ∈ pair_files files_a files_b thr) :
    ∃ s, (s, fb) ∈ buildStems files_b := by
  obtain ⟨fa2, hfa2, hpf⟩ := List.mem_filterMap.mp h
  unfold pairFor at hpf
  cases hfind : (buildStems files_b).find?
      (fun p => lowerStr fa2.stem == lowerStr p.1) with
  | some p =>
    rw [hfind] at hpf
    have hmemp := List.mem_of_find?_eq_some hfind
    have h4 := Option.some.inj hpf
    have h5 : p.2 = fb := congrArg (fun t => t.2.1) h4
    exact ⟨p.1, by rw [← h5]; exact hmemp⟩
  | none =>
    rw [hfind] at hpf
    cases hgcm : get_close_matches1 fa2.stem
        ((buildStems files_b).map (fun p => p.1)) thr with
    | none => rw [hgcm] at hpf; simp at hpf
    | some m =>
      rw [hgcm] at hpf
      dsimp only at hpf
      cases hdg : dictGet (buildStems files_b) m with
      | none => rw [hdg] at hpf; simp at hpf
      | some fb2 =>
        rw [hdg] at hpf
        have h4 : (fa2, fb2, smRatio fa2.stem m) = (fa, fb, r) :=
          Option.some.inj hpf
        have h5 : fb2 = fb := congrArg (fun t => t.2.1) h4
        unfold dictGet at hdg
        cases hf2 : (buildStems files_b).find? (fun p => p.1 == m) with
        | none => rw [hf2] at hdg; simp at hdg
        | some q =>
          rw [hf2] at hdg
          have hdg2 : q.2 = fb2 := Option.some.inj hdg
          have hmq := List.mem_of_find?_eq_some hf2
          refine ⟨q.1, ?_⟩
          rw [← h5, ← hdg2]
          exact hmq

/-- C9 (implicit): pair_files indexes the B files by stem in a Python
dict, so a B file can only appear in an emitted pair if it is the LAST
file with its stem in B's enumeration order; earlier same-stem B files
are never paired. -/
theorem C9_duplicate_stems_last_wins (files_a files_b : List XFile)
    (thr : ℚ) (fa fb : XFile) (r : ℚ)
    (h : (fa, fb, r) ∈ pair_files files_a files_b thr) :
    (files_b.filter (fun f => f.stem == fb.stem)).getLast? = some fb := by
  obtain ⟨s, hs⟩ := pair_snd_mem_stems files_a files_b thr fa fb r h
  obtain ⟨hstem, hlast⟩ := buildStems_last files_b (s, fb) hs
  rw [← hstem] at hlast
  exact hlast

/-- C9 witness: with B files "B/X.xls" and "B/X.xlsx" sharing stem "X",
the emitted pair for the A file "A/X.xlsx" carries the second (last) B
file, which is indeed the last element of B filtered to stem "X". -/
theorem C9_duplicate_stems_last_wins_witness :
    (exDupA, exDupB2, 1) ∈ pair_files [exDupA] [exDupB1, exDupB2] 1 ∧
    ([exDupB1, exDupB2].filter
      (fun f => f.stem == exDupB2.stem)).getLast? = some exDupB2 :=
  ⟨by decide,
   C9_duplicate_stems_last_wins [exDupA] [exDupB1, exDupB2] 1 exDupA
     exDupB2 1 (by decide)⟩

theorem tupleLt_irrefl (p : ℚ × String) : ¬ tupleLt p p := by
  unfold tupleLt
  rintro (h | ⟨_, h⟩) <;> exact lt_irrefl _ h

theorem tupleLt_trans {p q r : ℚ × String} (h1 : tupleLt p q)
    (h2 : tupleLt q r) : tupleLt p r := by
  unfold tupleLt at h1 h2 ⊢
  rcases h1 with h1 | ⟨e1, h1⟩ <;> rcases h2 with h2 | ⟨e2, h2⟩
  · exact Or.inl (lt_trans h1 h2)
  · exact Or.inl (e2 ▸ h1)
  · exact Or.inl (e1 ▸ h2)
  · exact Or.inr ⟨e1.trans e2, lt_trans h1 h2⟩

theorem tupleLt_total (p q : ℚ × String) :
    tupleLt p q ∨ tupleLt q p ∨ p = q := by
  unfold tupleLt
  rcases lt_trichotomy p.1 q.1 with h | h | h
  · exact Or.inl (Or.inl h)
  · rcases lt_trichotomy p.2 q.2 with h2 | h2 | h2
    · exact Or.inl (Or.inr ⟨h, h2⟩)
    · exact Or.inr (Or.inr (Prod.ext h h2))
    · exact Or.inr (Or.inl (Or.inr ⟨h.symm, h2⟩))
  · exact Or.inr (Or.inl (Or.inl h))

/- The foldl over the scored list (the model of heapq.nlargest with
   n = 1 under Python tuple comparison) returns an element of the list
   that no element strictly exceeds. -/
theorem foldlMax_spec (ps : List (ℚ × String)) :
    ∀ p : ℚ × String,
      (ps.foldl (fun m q => if tupleLt m q then q else m) p) ∈ p :: ps ∧
      ¬ tupleLt (ps.foldl (fun m q => if tupleLt m q then q else m) p) p ∧
      ∀ q ∈ ps,
        ¬ tupleLt (ps.foldl (fun m q => if tupleLt m q then q else m) p) q := by
  induction ps with
  | nil =>
    intro p
    exact ⟨List.mem_cons_self p [], tupleLt_irrefl p, by simp⟩
  | cons q qs ih =>
    intro p
    simp only [List.foldl_cons]
    obtain ⟨hmem, hnotp, hall⟩ := ih (if tupleLt p q then q else p)
    set m := qs.foldl (fun m q => if tupleLt m q then q else m)
      (if tupleLt p q then q else p) with hm
    by_cases hpq : tupleLt p q
    · rw [if_pos hpq] at hmem hnotp
      refine ⟨List.mem_cons_of_mem p hmem, ?_, ?_⟩
      · intro hmp
        exact hnotp (tupleLt_trans hmp hpq)
      · intro x hx
        rcases List.mem_cons.mp hx with rfl | h
        · exact hnotp
        · exact hall x h
    · rw [if_neg hpq] at hmem hnotp
      refine ⟨?_, hnotp, ?_⟩
      · rcases List.mem_cons.mp hmem with h | h
        · rw [h]
          exact List.mem_cons_self p (q :: qs)
        · exact List.mem_cons_of_mem p (List.mem_cons_of_mem q h)
      · intro x hx
        rcases List.mem_cons.mp hx with rfl | h
        · intro hmx
          rcases tupleLt_total p x with h1 | h1 | h1
          · exact hpq h1
          · exact hnotp (tupleLt_trans hmx h1)
          · exact hnotp (h1 ▸ hmx)
        · exact hall x h

theorem maxTuple_spec (l : List (ℚ × String)) (p : ℚ × String)
    (h : maxTuple l = some p) :
    p ∈ l ∧ ∀ q ∈ l, ¬ tupleLt p q := by
  cases l with
  | nil => simp [maxTuple] at h
  | cons x xs =>
    have h2 := Option.some.inj h
    obtain ⟨hmem, hnx, hall⟩ := foldlMax_spec xs x
    rw [h2] at hmem hnx hall
    refine ⟨hmem, ?_⟩
    intro q hq
    rcases List.mem_cons.mp hq with rfl | h3
    · exact hnx
    · exact hall q h3

theorem maxTuple_eq_none (l : List (ℚ × String)) :
    maxTuple l = none ↔ l = [] := by
  cases l <;> simp [maxTuple]

/- get_close_matches returns no candidate exactly when every possibility
   scores below the cutoff. -/
theorem gcm_none_iff (word : String) (poss : List String) (cutoff : ℚ) :
    get_close_matches1 word poss cutoff = none ↔
      ∀ x ∈ poss, smRatio x word < cutoff := by
  unfold get_close_matches1
  rw [Option.map_eq_none', maxTuple_eq_none, List.filterMap_eq_nil_iff]
  constructor
  · intro h x hx
    have h2 := h x hx
    by_cases hc : cutoff ≤ smRatio x word
    · rw [if_pos hc] at h2
      exact absurd h2 (by simp)
    · exact lt_of_not_le hc
  · intro h x hx
    rw [if_neg (not_le_of_lt (h x hx))]

/- When get_close_matches returns a candidate, it is a possibility whose
   score meets the cutoff and which no qualifying possibility beats in
   the (ratio, candidate) tuple order. -/
theorem gcm_some (word : String) (poss : List String) (cutoff : ℚ)
    (m : String) (h : get_close_matches1 word poss cutoff = some m) :
    m ∈ poss ∧ cutoff ≤ smRatio m word ∧
      ∀ y ∈ poss, cutoff ≤ smRatio y word →
        ¬ tupleLt (smRatio m word, m) (smRatio y word, y) := by
  unfold get_close_matches1 at h
  cases hmx : maxTuple (poss.filterMap (fun x =>
      if cutoff ≤ smRatio x word then some (smRatio x word, x) else none)) with
  | none => rw [hmx] at h; simp at h
  | some p =>
    rw [hmx] at h
    have hpm : p.2 = m := Option.some.inj h
    obtain ⟨hpmem, hbest⟩ := maxTuple_spec _ p hmx
    obtain ⟨x, hx, hxeq⟩ := List.mem_filterMap.mp hpmem
    by_cases hc : cutoff ≤ smRatio x word
    · rw [if_pos hc] at hxeq
      have hp : p = (smRatio x word, x) := (Option.some.inj hxeq).symm
      have hxm : x = m := by rw [← hpm, hp]
      subst hxm
      have hp1 : p.1 = smRatio x word := by rw [hp]
      refine ⟨hx, hc, ?_⟩
      intro y hy hyc
      have hymem : (smRatio y word, y) ∈ poss.filterMap (fun x =>
          if cutoff ≤ smRatio x word then some (smRatio x word, x) else none) :=
        List.mem_filterMap.mpr ⟨y, hy, by rw [if_pos hyc]⟩
      have h2 := hbest _ hymem
      rw [hp] at h2
      exact h2
    · rw [if_neg hc] at hxeq
      exact absurd hxeq (by simp)

theorem smRatio_nonneg (sa sb : String) : 0 ≤ smRatio sa sb := by
  unfold smRatio
  dsimp only
  split
  · norm_num
  · rw [Rat.mkRat_eq_div]
    apply div_nonneg
    · exact_mod_cast Int.ofNat_nonneg _
    · exact_mod_cast Nat.zero_le _

theorem dictInsert_ne_nil (m : List (String × XFile)) (k : String)
    (v : XFile) : dictInsert m k v ≠ [] := by
  unfold dictInsert
  by_cases hany : m.any (fun q => q.1 == k)
  · rw [if_pos hany]
    intro hmap
    rw [List.map_eq_nil_iff] at hmap
    rw [hmap] at hany
    simp at hany
  · rw [if_neg hany]
    simp

theorem buildStems_ne_nil (files : List XFile) (h : files ≠ []) :
    buildStems files ≠ [] := by
  have haux : ∀ (fs : List XFile) (m : List (String × XFile)), m ≠ [] →
      fs.foldl (fun m f => dictInsert m f.stem f) m ≠ [] := by
    intro fs
    induction fs with
    | nil => intro m hm; exact hm
    | cons g gs ih =>
      intro m hm
      rw [List.foldl_cons]
      exact ih _ (dictInsert_ne_nil _ _ _)
  cases files with
  | nil => exact absurd rfl h
  | cons f fs =>
    unfold buildStems
    rw [List.foldl_cons]
    exact haux fs _ (dictInsert_ne_nil _ _ _)

theorem dictGet_isSome (m : List (String × XFile)) (x : String)
    (h : x ∈ m.map (fun p => p.1)) : ∃ fb, dictGet m x = some fb := by
  obtain ⟨p, hp, hpx⟩ := List.mem_map.mp h
  have h2 : ((m.find? (fun q => q.1 == x)).isSome) := by
    rw [List.find?_isSome]
    exact ⟨p, hp, by simp [hpx]⟩
  obtain ⟨q, hq⟩ := Option.isSome_iff_exists.mp h2
  exact ⟨q.2, by unfold dictGet; rw [hq]; rfl⟩

/-- C6: for an A file with no exact case-insensitive stem match, a pair
is emitted iff some (equivalently, the best) B stem's similarity ratio
reaches the threshold; the emitted pair carries the best-scoring
candidate (under the (ratio, candidate) tuple order used by nlargest),
its dictionary file, and SequenceMatcher(None, a_stem, candidate).ratio()
as score; if every candidate scores below the threshold the A file is
silently skipped, and with threshold 0 a pair is always produced when
filesB is non-empty. -/
theorem C6_fuzzy_threshold (files_b : List XFile) (thr : ℚ) (fa : XFile)
    (hno : (buildStems files_b).find?
      (fun p => lowerStr fa.stem == lowerStr p.1) = none) :
    ((pairFor (buildStems files_b) thr fa = none) ↔
      ∀ x ∈ (buildStems files_b).map (fun p => p.1),
        smRatio x fa.stem < thr) ∧
    (∀ res, pairFor (buildStems files_b) thr fa = some res →
      ∃ x fb, x ∈ (buildStems files_b).map (fun p => p.1) ∧
        thr ≤ smRatio x fa.stem ∧
        (∀ y ∈ (buildStems files_b).map (fun p => p.1),
          thr ≤ smRatio y fa.stem →
            ¬ tupleLt (smRatio x fa.stem, x) (smRatio y fa.stem, y)) ∧
        dictGet (buildStems files_b) x = some fb ∧
        res = (fa, fb, smRatio fa.stem x)) ∧
    (thr = 0 → files_b ≠ [] →
      pairFor (buildStems files_b) thr fa ≠ none) := by
  have hiff : (pairFor (buildStems files_b) thr fa = none) ↔
      ∀ x ∈ (buildStems files_b).map (fun p => p.1),
        smRatio x fa.stem < thr := by
    constructor
    · intro hpf
      rw [← gcm_none_iff fa.stem ((buildStems files_b).map (fun p => p.1)) thr]
      by_contra hgcm
      obtain ⟨m, hgm⟩ := Option.ne_none_iff_exists'.mp hgcm
      obtain ⟨hmem, _, _⟩ := gcm_some fa.stem _ thr m hgm
      obtain ⟨fb, hfb⟩ := dictGet_isSome (buildStems files_b) m hmem
      unfold pairFor at hpf
      rw [hno] at hpf
      dsimp only at hpf
      rw [hgm] at hpf
      dsimp only at hpf
      rw [hfb] at hpf
      simp at hpf
    · intro hlt
      have hgcm := (gcm_none_iff fa.stem
        ((buildStems files_b).map (fun p => p.1)) thr).mpr hlt
      unfold pairFor
      rw [hno]
      dsimp only
      rw [hgcm]
  refine ⟨hiff, ?_, ?_⟩
  · intro res hres
    unfold pairFor at hres
    rw [hno] at hres
    cases hgcm : get_close_matches1 fa.stem
        ((buildStems files_b).map (fun p => p.1)) thr with
    | none => rw [hgcm] at hres; simp at hres
    | some m =>
      rw [hgcm] at hres
      dsimp only at hres
      obtain ⟨hmem, hcut, hbest⟩ := gcm_some fa.stem _ thr m hgcm
      cases hdg : dictGet (buildStems files_b) m with
      | none => rw [hdg] at hres; simp at hres
      | some fb =>
        rw [hdg] at hres
        have h4 : (fa, fb, smRatio fa.stem m) = res := Option.some.inj hres
        exact ⟨m, fb, hmem, hcut, hbest, hdg, h4.symm⟩
  · intro hthr hfb hpf
    have hlt := hiff.mp hpf
    have hk := buildStems_ne_nil files_b hfb
    obtain ⟨p, hp⟩ := List.exists_mem_of_ne_nil _ hk
    have hx : p.1 ∈ (buildStems files_b).map (fun q => q.1) :=
      List.mem_map_of_mem _ hp
    have h2 := hlt p.1 hx
    rw [hthr] at h2
    exact absurd h2 (not_lt_of_le (smRatio_nonneg p.1 fa.stem))

/-- C6 witness: A file "data_2023" against B file "data_2024": there is
no exact match, the similarity ratio is 8/9 which is below threshold
19/20, so no pair is produced (silently); the characterization theorem
applies at this input. -/
theorem C6_fuzzy_threshold_witness :
    (buildStems [exFb24]).find?
      (fun p => lowerStr exFa23.stem == lowerStr p.1) = none ∧
    pairFor (buildStems [exFb24]) (mkRat 19 20) exFa23 = none ∧
    smRatio "data_2024" "data_2023" = mkRat 8 9 ∧
    pairFor (buildStems [exFb24]) 0 exFa23 ≠ none ∧
    ((pairFor (buildStems [exFb24]) (mkRat 19 20) exFa23 = none) ↔
      ∀ x ∈ (buildStems [exFb24]).map (fun p => p.1),
        smRatio x exFa23.stem < mkRat 19 20) :=
  ⟨by decide,
   by set_option maxRecDepth 10000 in decide,
   by set_option maxRecDepth 10000 in decide,
   by set_option maxRecDepth 10000 in decide,
   (C6_fuzzy_threshold [exFb24] (mkRat 19 20) exFa23 (by decide)).1⟩

end CE
